import Mathlib

/-!
Verification development for the `file-read-backwards` repository.

The repository reads a text file from its end toward its beginning and
yields one decoded line at a time.  The package consists of
`file_read_backwards.py` (present in the sources: `FileReadBackwards` and
`FileReadBackwardsIterator`) and a `BufferWorkSpace` module (the chunked
backward buffer), which is imported by the source file but whose code is
not part of the given sources; its operations are modelled here from the
specification and are marked `Modelled from the spec:` in their doc
comments.

Files are modelled as lists of bytes (`List Nat`); the file system as a
partial map from paths to byte lists.  Iteration is modelled as an
explicit step function (`FileReadBackwardsIterator.next`) returning a sum
of "a line", "end of sequence" (Python's `StopIteration`) and an error
(Python's `OSError` for I/O failure, `UnicodeDecodeError` for decoding
failure).
-/

/-- Bytes recognized as line-separator bytes: `\n` (10) and `\r` (13). -/
def isNL (b : Nat) : Bool := b == 10 || b == 13

/-- Reference notion (from the spec's words, not from the code) of the
physical line segments of a file: split the byte list on the separators
`\r\n`, `\n` and lone `\r` (maximal munch, scanning forward).  The result
always contains one segment more than the number of separator
occurrences; a trailing separator hence contributes a final empty
segment. -/
def splitL : List Nat → List (List Nat)
  | [] => [[]]
  | b :: rest =>
    if b = 13 then
      match rest with
      | [] => [[], []]
      | b2 :: rest2 => if b2 = 10 then [] :: splitL rest2 else [] :: splitL (b2 :: rest2)
    else if b = 10 then [] :: splitL rest
    else (b :: (splitL rest).headD []) :: (splitL rest).tail

/-- Reference notion of "the file's lines": the segments of `splitL`,
except that a file ending in a line separator does not contribute a final
empty line (and the empty file has no lines). -/
def fileLines (u : List Nat) : List (List Nat) :=
  if (splitL u).getLast? = some [] then (splitL u).dropLast else splitL u

theorem splitL_nil : splitL [] = [[]] := rfl

theorem splitL_10 (rest : List Nat) : splitL (10 :: rest) = [] :: splitL rest := by
  rw [splitL.eq_def]; simp

theorem splitL_13_nil : splitL [13] = [[], []] := rfl

theorem splitL_13_10 (rest : List Nat) :
    splitL (13 :: 10 :: rest) = [] :: splitL rest := by
  rw [splitL.eq_def]; simp

theorem splitL_13_ne (b2 : Nat) (rest : List Nat) (h : b2 ≠ 10) :
    splitL (13 :: b2 :: rest) = [] :: splitL (b2 :: rest) := by
  rw [splitL.eq_def]; simp [h]

theorem splitL_other (b : Nat) (rest : List Nat) (h13 : b ≠ 13) (h10 : b ≠ 10) :
    splitL (b :: rest) = (b :: (splitL rest).headD []) :: (splitL rest).tail := by
  rw [splitL.eq_def]; simp [h13, h10]

theorem splitL_ne_nil (l : List Nat) : splitL l ≠ [] := by
  induction l using splitL.induct <;>
    simp_all [splitL_nil, splitL_13_nil, splitL_13_10, splitL_13_ne, splitL_other,
      splitL_10]

/-- Modelled from the spec: the trailing-separator strip used by the
buffer (`BufferWorkSpace` is not among the given sources).  The input is
the pending buffer REVERSED; one trailing `\r\n`, `\n` or lone `\r` is
removed, so a `\r` immediately preceding a consumed `\n` is never leaked
into an emitted line, also when the pair was split across a chunk
boundary. -/
def stripSepRev : List Nat → List Nat
  | [] => []
  | b :: rest =>
    if b = 10 then
      match rest with
      | [] => []
      | b2 :: rest2 => if b2 = 13 then rest2 else b2 :: rest2
    else if b = 13 then rest
    else b :: rest

/-- Modelled from the spec: the state of the chunked backward buffer.
`cursor` is the file offset up to which bytes have not yet been pulled
(initially the file length); `pending` holds bytes already pulled from
the file but not yet emitted as lines.  The opened file handle that the
Python object holds is passed explicitly to the operations that read. -/
structure BufferWorkSpace where
  chunk_size : Nat
  cursor : Nat
  pending : List Nat
deriving Repr, DecidableEq

/-- Modelled from the spec: buffer construction; cursor starts at the
file length (seek to end), pending buffer empty. -/
def BufferWorkSpace.init (file : List Nat) (chunk_size : Nat) : BufferWorkSpace :=
  { chunk_size := chunk_size, cursor := file.length, pending := [] }

/-- An I/O failure of the underlying read (Python `OSError`/`ValueError`
on a truncated read). -/
inductive ReadError where
  | truncatedRead
deriving Repr, DecidableEq

/-- A seek-and-read primitive on the modelled file: the bytes at offsets
`[off, off + n)`, possibly fewer when the file is shorter. -/
def readAt (file : List Nat) (off n : Nat) : List Nat := (file.drop off).take n

/-- Modelled from the spec: `pull_next_chunk` computes
`read_size = min(chunk_size, cursor)`; if zero it is a no-op; otherwise
it seeks to `cursor - read_size`, reads exactly `read_size` bytes,
prepends them to the pending buffer and decreases the cursor by
`read_size`.  If the underlying read returns fewer bytes than requested
the call fails with an I/O error, propagated without retry. -/
def pull_next_chunk (file : List Nat) (b : BufferWorkSpace) :
    Except ReadError BufferWorkSpace :=
  let read_size := min b.chunk_size b.cursor
  if read_size = 0 then .ok b
  else
    let chunk := readAt file (b.cursor - read_size) read_size
    if chunk.length = read_size then
      .ok { chunk_size := b.chunk_size, cursor := b.cursor - read_size,
            pending := chunk ++ b.pending }
    else .error .truncatedRead

/-- Modelled from the spec: `has_yieldable_line` is true when the pending
buffer contains a complete trailing line (after discounting one trailing
separator there is still a separator occurrence) or the cursor has
reached the file start. -/
def has_yieldable_line (b : BufferWorkSpace) : Bool :=
  (stripSepRev b.pending.reverse).any isNL || b.cursor == 0

/-- Modelled from the spec: `has_returned_every_line` is true once the
pending buffer is empty and the cursor has reached the file start. -/
def has_returned_every_line (b : BufferWorkSpace) : Bool :=
  b.pending.isEmpty && b.cursor == 0

/-- Modelled from the spec: `return_line` discounts one trailing
separator, locates the last remaining line separator (scanning from the
end) and removes and returns the bytes strictly after it; the pending
buffer shrinks to the part up to and including that separator.  If no
separator remains (the cursor having reached the file start) the whole
remaining buffer is returned and the pending buffer is left empty. -/
def return_line (b : BufferWorkSpace) : List Nat × BufferWorkSpace :=
  let t := stripSepRev b.pending.reverse
  let rrest := t.dropWhile (fun y => !isNL y)
  if rrest.isEmpty then
    (t.reverse, { b with pending := [] })
  else
    ((t.takeWhile (fun y => !isNL y)).reverse, { b with pending := rrest.reverse })

/-- Modelled from the spec: `read_until_yieldable` repeatedly calls
`pull_next_chunk` until a line is yieldable.  The recursion is paced by
an explicit fuel counter; `b.cursor + 1` pulls always suffice because
every pull with positive chunk size strictly decreases the cursor and
the buffer is yieldable once the cursor reaches 0 (the fuel is a
modelling device only; with a chunk size of 0 the Python loop would not
terminate). -/
def read_until_aux (file : List Nat) : Nat → BufferWorkSpace → Except ReadError BufferWorkSpace
  | 0, b => .ok b
  | n + 1, b =>
    if has_yieldable_line b then .ok b
    else
      match pull_next_chunk file b with
      | .error e => .error e
      | .ok b2 => read_until_aux file n b2

/-- Modelled from the spec: the buffer pulls chunks from progressively
earlier offsets until a complete line can be yielded. -/
def read_until_yieldable (file : List Nat) (b : BufferWorkSpace) :
    Except ReadError BufferWorkSpace :=
  read_until_aux file (b.cursor + 1) b

/-- Bytes that continue a multi-byte UTF-8 sequence. -/
def isCont (b : Nat) : Bool := 128 ≤ b && b < 192

/-- UTF-8 decoding of a byte list, rejecting malformed sequences
(stray or missing continuation bytes, overlong forms, surrogates,
out-of-range code points), as Python's strict `bytes.decode("utf-8")`
does. -/
def utf8DecodeAux : List Nat → Option (List Char)
  | [] => some []
  | b :: rest =>
    if b < 128 then (utf8DecodeAux rest).map (fun cs => Char.ofNat b :: cs)
    else if b < 192 then none
    else if b < 224 then
      match rest with
      | b2 :: rest2 =>
        if isCont b2 then
          let cp := (b - 192) * 64 + (b2 - 128)
          if 128 ≤ cp then (utf8DecodeAux rest2).map (fun cs => Char.ofNat cp :: cs)
          else none
        else none
      | [] => none
    else if b < 240 then
      match rest with
      | b2 :: b3 :: rest3 =>
        if isCont b2 && isCont b3 then
          let cp := (b - 224) * 4096 + (b2 - 128) * 64 + (b3 - 128)
          if 2048 ≤ cp && !(55296 ≤ cp && cp ≤ 57343) then
            (utf8DecodeAux rest3).map (fun cs => Char.ofNat cp :: cs)
          else none
        else none
      | _ => none
    else if b < 248 then
      match rest with
      | b2 :: b3 :: b4 :: rest4 =>
        if isCont b2 && isCont b3 && isCont b4 then
          let cp := (b - 240) * 262144 + (b2 - 128) * 4096 + (b3 - 128) * 64 + (b4 - 128)
          if 65536 ≤ cp && cp ≤ 1114111 then
            (utf8DecodeAux rest4).map (fun cs => Char.ofNat cp :: cs)
          else none
        else none
      | _ => none
    else none

/-- ASCII decoding: every byte must be below 128. -/
def asciiDecodeAux : List Nat → Option (List Char)
  | [] => some []
  | b :: rest =>
    if b < 128 then (asciiDecodeAux rest).map (fun cs => Char.ofNat b :: cs) else none

/-- Latin-1 decoding: every byte below 256 maps to the code point of the
same value. -/
def latin1DecodeAux : List Nat → Option (List Char)
  | [] => some []
  | b :: rest =>
    if b < 256 then (latin1DecodeAux rest).map (fun cs => Char.ofNat b :: cs) else none

/-- Decoding of a raw byte line under one of the supported encodings
(`r.decode(self.encoding)` in the source); `none` models a raised
`UnicodeDecodeError`. -/
def decodeBytes (enc : String) (l : List Nat) : Option String :=
  if enc = "utf-8" then (utf8DecodeAux l).map (fun cs => String.mk cs)
  else if enc = "ascii" then (asciiDecodeAux l).map (fun cs => String.mk cs)
  else if enc = "latin-1" then (latin1DecodeAux l).map (fun cs => String.mk cs)
  else none

/-- The kind of error a call to `next()` can raise: an I/O failure from
the underlying read (`OSError`) or a decoding failure of the returned
line (`UnicodeDecodeError`).  The two are distinct exception kinds in
Python. -/
inductive StepErr where
  | ioErr
  | decodeErr
deriving Repr, DecidableEq

/-- The outcome of one iteration step: a decoded line, the
end-of-sequence signal (Python's `StopIteration`), or a raised error. -/
inductive NextOutcome where
  | stop
  | line (s : String)
  | err (e : StepErr)
deriving Repr, DecidableEq

/-- The state of a `FileReadBackwardsIterator` (source lines 73-129):
the opened file handle is modelled by the byte content it reads from
(`file`) plus its closed flag. -/
structure FileReadBackwardsIterator where
  file : List Nat
  encoding : String
  chunk_size : Nat
  closed : Bool
  buf : BufferWorkSpace
deriving Repr, DecidableEq

/-- Construction of a `FileReadBackwardsIterator` on a freshly opened
handle (source lines 78-89): the buffer starts at the file's end. -/
def mkIterator (file : List Nat) (encoding : String) (chunk_size : Nat) :
    FileReadBackwardsIterator :=
  { file := file, encoding := encoding, chunk_size := chunk_size, closed := false,
    buf := BufferWorkSpace.init file chunk_size }

/-- The `close` method of the iterator (source lines 127-129): closes the
underlying file handle. -/
def FileReadBackwardsIterator.close (it : FileReadBackwardsIterator) :
    FileReadBackwardsIterator :=
  { it with closed := true }

/-- The `next` method of the iterator (source lines 94-115): raise
`StopIteration` if the handle is closed; if every line has been returned,
close the handle and raise `StopIteration`; otherwise read until a line
is yieldable, extract it and decode it.  The step returns the outcome
together with the successor state. -/
def FileReadBackwardsIterator.next (it : FileReadBackwardsIterator) :
    NextOutcome × FileReadBackwardsIterator :=
  if it.closed then (.stop, it)
  else if has_returned_every_line it.buf then (.stop, it.close)
  else
    match read_until_yieldable it.file it.buf with
    | .error _ => (.err .ioErr, it)
    | .ok b1 =>
      let p := return_line b1
      match decodeBytes it.encoding p.1 with
      | some s => (.line s, { it with buf := p.2 })
      | none => (.err .decodeErr, { it with buf := p.2 })

/-- Repeatedly call `next`, collecting the outcomes; the first
end-of-sequence signal is recorded and iteration stops there.  `fuel`
bounds the number of steps taken (the consumer-side loop). -/
def iterate : Nat → FileReadBackwardsIterator → List NextOutcome
  | 0, _ => []
  | fuel + 1, it =>
    match it.next with
    | (.stop, _) => [.stop]
    | (o, it2) => o :: iterate fuel it2

/-- The outcome `next` produces for a raw byte line under a given
encoding: the decoded line, or a decoding error. -/
def outcomeOf (enc : String) (l : List Nat) : NextOutcome :=
  match decodeBytes enc l with
  | some s => .line s
  | none => .err .decodeErr

/-- The encodings accepted by `FileReadBackwards` (source line 11). -/
def supported_encodings : List String := ["utf-8", "ascii", "latin-1"]

/-- Python's `str.lower()` as used on encoding names (source lines 35 and
41): lowercase each character. -/
def strLower (s : String) : String := String.mk (s.data.map Char.toLower)

/-- The configuration stored by a successfully constructed
`FileReadBackwards` (source lines 40-42). -/
structure FileReadBackwards where
  path : String
  encoding : String
  chunk_size : Int
deriving Repr, DecidableEq

/-- Constructor of `FileReadBackwards` (source lines 27-43): the
encoding name is validated, case-insensitively, against the allow-list
and stored lowercased; `path` and `chunk_size` are stored unchecked.  A
failed validation raises `NotImplementedError` with the message built on
source lines 36-37, modelled as `Except.error` carrying that message.
No file is opened here. -/
def FileReadBackwards.init (path encoding : String) (chunk_size : Int) :
    Except String FileReadBackwards :=
  if supported_encodings.contains (strLower encoding) then
    .ok { path := path, encoding := strLower encoding, chunk_size := chunk_size }
  else
    .error (encoding ++ " encoding was not supported/tested." ++
      "Supported encodings are '" ++ String.intercalate "," supported_encodings ++ "'")

/-- Failure to open the file at the stored path (Python's
`FileNotFoundError`/`OSError` raised by `io.open`). -/
inductive OpenError where
  | fileNotFound
deriving Repr, DecidableEq

/-- The `__iter__` method (source lines 45-49): opens the file at the
stored path and returns a fresh iterator over its bytes.  The file
system is modelled as a partial map from paths to byte contents; a
missing path fails here, not at construction.  `chunk_size` reaches the
iterator unchanged; the buffer arithmetic is specified for positive
sizes, hence the clamp of negative values to 0. -/
def FileReadBackwards.iter (fs : String → Option (List Nat)) (frb : FileReadBackwards) :
    Except OpenError FileReadBackwardsIterator :=
  match fs frb.path with
  | none => .error .fileNotFound
  | some bytes => .ok (mkIterator bytes frb.encoding frb.chunk_size.toNat)

/-- A file handle as tracked by the reader's weak-reference

bookkeeping: only its closed flag matters for the close contract. -/
structure FileHandle where
  closed : Bool
deriving Repr, DecidableEq

/-- Closing a file handle (Python `fp.close()`): idempotent and never an
error, also on an already closed handle. -/
def FileHandle.close (h : FileHandle) : FileHandle :=
  { h with closed := true }

/-- The bulk `close` of `FileReadBackwards` (source lines 59-70): walk
the stored weak references (`none` models a garbage-reclaimed iterator),
close every still-alive handle, and keep only the references to
non-collected handles. -/
def closeAll (refs : List (Option FileHandle)) : List (Option FileHandle) :=
  refs.filterMap fun r =>
    match r with
    | none => none
    | some h => some (some h.close)

theorem cons_headD_tail {α : Type} (l : List α) (h : l ≠ []) (d : α) :
    l.headD d :: l.tail = l := by
  cases l with
  | nil => exact absurd rfl h
  | cons a t => rfl

theorem headD_append {α : Type} (l m : List α) (h : l ≠ []) (d : α) :
    (l ++ m).headD d = l.headD d := by
  cases l with
  | nil => exact absurd rfl h
  | cons a t => rfl

theorem tail_append_ne_nil {α : Type} (l m : List α) (h : l ≠ []) :
    (l ++ m).tail = l.tail ++ m := by
  cases l with
  | nil => exact absurd rfl h
  | cons a t => rfl

theorem dropLast_facts {α : Type} (S : List α) (h : 2 ≤ S.length) (d : α) :
    S.dropLast.headD d = S.headD d ∧ S.dropLast.tail = S.tail.dropLast ∧
      S.dropLast ≠ [] := by
  match S with
  | [] => simp at h
  | [a] => simp at h
  | a :: b :: rest => refine ⟨rfl, rfl, by simp⟩

theorem splitL_sep_single (x : Nat) (hx : isNL x = true) : splitL [x] = [[], []] := by
  rcases Bool.or_eq_true_iff.mp hx with h | h
  · rw [eq_of_beq h, splitL_10, splitL_nil]
  · rw [eq_of_beq h, splitL_13_nil]

theorem splitL_sep_cons (x : Nat) (hx : isNL x = true) (v : List Nat)
    (hsafe : x = 13 → v.head? ≠ some 10) :
    splitL (x :: v) = [] :: splitL v := by
  rcases Bool.or_eq_true_iff.mp hx with h | h
  · rw [eq_of_beq h, splitL_10]
  · have hx13 : x = 13 := eq_of_beq h
    subst hx13
    cases v with
    | nil => exact splitL_13_nil
    | cons c v2 =>
      have hc : c ≠ 10 := by
        intro hc10
        exact (hsafe rfl) (by simp [hc10])
      exact splitL_13_ne c v2 hc

theorem isNL_iff (x : Nat) : isNL x = true ↔ x = 10 ∨ x = 13 := by
  simp [isNL]

theorem splitL_break (x : Nat) (hx : isNL x = true) (v : List Nat)
    (hsafe : x = 13 → v.head? ≠ some 10) :
    ∀ w : List Nat,
      splitL (w ++ x :: v) = (splitL (w ++ [x])).dropLast ++ splitL v ∧
        2 ≤ (splitL (w ++ [x])).length := by
  intro w
  induction w using splitL.induct with
  | case1 =>
    rw [List.nil_append, List.nil_append, splitL_sep_cons x hx v hsafe,
      splitL_sep_single x hx]
    exact ⟨rfl, by simp⟩
  | case2 =>
    rcases (isNL_iff x).mp hx with h10 | h13
    · subst h10
      simp only [List.cons_append, List.nil_append]
      rw [splitL_13_10, splitL_13_10, splitL_nil]
      exact ⟨rfl, by simp⟩
    · subst h13
      simp only [List.cons_append, List.nil_append]
      rw [splitL_13_ne 13 v (by norm_num), splitL_sep_cons 13 (by simp [isNL]) v hsafe,
        splitL_13_ne 13 [] (by norm_num), splitL_13_nil]
      exact ⟨rfl, by simp⟩
  | case3 rest2 ih =>
    simp only [List.cons_append] at ih ⊢
    have hS := splitL_ne_nil (rest2 ++ [x])
    rw [splitL_13_10, splitL_13_10, ih.1, List.dropLast_cons_of_ne_nil hS]
    refine ⟨rfl, ?_⟩
    have := List.length_pos.mpr hS
    simp only [List.length_cons]
    omega
  | case4 b2 rest2 hb2 ih =>
    simp only [List.cons_append] at ih ⊢
    have hS := splitL_ne_nil (b2 :: (rest2 ++ [x]))
    rw [splitL_13_ne b2 _ hb2, splitL_13_ne b2 _ hb2, ih.1,
      List.dropLast_cons_of_ne_nil hS]
    refine ⟨rfl, ?_⟩
    have := List.length_pos.mpr hS
    simp only [List.length_cons]
    omega
  | case5 rest2 h ih =>
    simp only [List.cons_append] at ih ⊢
    have hS := splitL_ne_nil (rest2 ++ [x])
    rw [splitL_10, splitL_10, ih.1, List.dropLast_cons_of_ne_nil hS]
    refine ⟨rfl, ?_⟩
    have := List.length_pos.mpr hS
    simp only [List.length_cons]
    omega
  | case6 b rest2 hb13 hb10 ih =>
    simp only [List.cons_append] at ih ⊢
    have hS := splitL_ne_nil (rest2 ++ [x])
    have hfacts := dropLast_facts (splitL (rest2 ++ [x])) ih.2 []
    have htail : (splitL (rest2 ++ [x])).tail ≠ [] := by
      intro hcon
      have h2 := ih.2
      have := congrArg List.length hcon
      simp only [List.length_tail, List.length_nil] at this
      omega
    constructor
    · rw [splitL_other b _ hb13 hb10, ih.1,
        headD_append _ _ hfacts.2.2, tail_append_ne_nil _ _ hfacts.2.2,
        hfacts.1, hfacts.2.1, splitL_other b _ hb13 hb10,
        List.dropLast_cons_of_ne_nil htail]
      rfl
    · rw [splitL_other b _ hb13 hb10]
      have h2 := ih.2
      simp only [List.length_cons, List.length_tail]
      omega

theorem isNL_false_iff (x : Nat) : isNL x = false ↔ x ≠ 10 ∧ x ≠ 13 := by
  simp [isNL]

theorem splitL_no_nl (line : List Nat) (hline : line.all (fun y => !isNL y) = true)
    (ys : List Nat) :
    splitL (line ++ ys) = (line ++ (splitL ys).headD []) :: (splitL ys).tail := by
  induction line with
  | nil =>
    simp only [List.nil_append]
    exact (cons_headD_tail _ (splitL_ne_nil ys) []).symm
  | cons a line2 ih =>
    simp only [List.all_cons, Bool.and_eq_true, Bool.not_eq_true'] at hline
    have ha := (isNL_false_iff a).mp hline.1
    have hall : line2.all (fun y => !isNL y) = true := by
      simp only [List.all_eq_true, Bool.not_eq_true']
      intro y hy
      have := hline.2
      simp only [List.all_eq_true, Bool.not_eq_true'] at this
      exact this y hy
    rw [List.cons_append, splitL_other a _ ha.2 ha.1, ih hall]
    rfl

theorem splitL_getLast_sep (w : List Nat) (x : Nat) (hx : isNL x = true) :
    (splitL (w ++ [x])).getLast? = some [] := by
  have h := (splitL_break x hx [] (by intro _; simp) w).1
  rw [splitL_nil] at h
  rw [h]
  exact List.getLast?_concat _

theorem fileLines_no_sep (t s : List Nat) (ht : t.all (fun y => !isNL y) = true)
    (hs : s = [] ∨ s = [10] ∨ s = [13] ∨ s = [13, 10])
    (hne : t ++ s ≠ []) :
    fileLines (t ++ s) = [t] := by
  rcases hs with h | h | h | h
  · subst h
    rw [List.append_nil] at hne ⊢
    have hsp : splitL t = [t] := by
      have := splitL_no_nl t ht []
      simpa [splitL_nil] using this
    have htne : t ≠ [] := hne
    simp [fileLines, hsp, htne]
  · subst h
    have hsp : splitL (t ++ [10]) = [t, []] := by
      have := splitL_no_nl t ht [10]
      rw [splitL_10, splitL_nil] at this
      simpa using this
    simp [fileLines, hsp]
  · subst h
    have hsp : splitL (t ++ [13]) = [t, []] := by
      have := splitL_no_nl t ht [13]
      rw [splitL_13_nil] at this
      simpa using this
    simp [fileLines, hsp]
  · subst h
    have hsp : splitL (t ++ [13, 10]) = [t, []] := by
      have := splitL_no_nl t ht [13, 10]
      rw [splitL_13_10, splitL_nil] at this
      simpa using this
    simp [fileLines, hsp]

theorem fileLines_peel (w : List Nat) (x : Nat) (hx : isNL x = true)
    (line s : List Nat) (hline : line.all (fun y => !isNL y) = true)
    (hs : s = [] ∨ s = [10] ∨ s = [13] ∨ s = [13, 10])
    (hguard : s = [10] → line = [] → x ≠ 13)
    (hnil : s = [] → line ≠ []) :
    fileLines ((w ++ [x]) ++ (line ++ s)) = fileLines (w ++ [x]) ++ [line] := by
  have hsafe : x = 13 → (line ++ s).head? ≠ some 10 := by
    intro hx13
    cases line with
    | cons a line2 =>
      simp only [List.all_cons, Bool.and_eq_true, Bool.not_eq_true'] at hline
      have ha := (isNL_false_iff a).mp hline.1
      simp [ha.1]
    | nil =>
      rcases hs with h | h | h | h
      · simp [h]
      · exact absurd hx13 (hguard h rfl)
      · simp [h]
      · simp [h]
  have hassoc : (w ++ [x]) ++ (line ++ s) = w ++ x :: (line ++ s) := by
    simp
  have hbreak := (splitL_break x hx (line ++ s) hsafe w).1
  have hlast := splitL_getLast_sep w x hx
  have hRfl : fileLines (w ++ [x]) = (splitL (w ++ [x])).dropLast := by
    simp [fileLines, hlast]
  rcases hs with h | h | h | h
  · subst h
    have hlinene := hnil rfl
    have hspl : splitL (line ++ []) = [line] := by
      have := splitL_no_nl line hline []
      simpa [splitL_nil] using this
    rw [List.append_nil] at hspl
    rw [List.append_nil] at hbreak
    rw [hassoc]
    simp only [List.append_nil] at hassoc ⊢
    rw [show fileLines (w ++ x :: line) =
        if (splitL (w ++ x :: line)).getLast? = some [] then
          (splitL (w ++ x :: line)).dropLast else splitL (w ++ x :: line) from rfl]
    rw [hbreak, hspl, hRfl]
    simp [List.getLast?_concat, hlinene]
  · subst h
    have hspl : splitL (line ++ [10]) = [line, []] := by
      have := splitL_no_nl line hline [10]
      rw [splitL_10, splitL_nil] at this
      simpa using this
    rw [hassoc]
    rw [show fileLines (w ++ x :: (line ++ [10])) =
        if (splitL (w ++ x :: (line ++ [10]))).getLast? = some [] then
          (splitL (w ++ x :: (line ++ [10]))).dropLast
        else splitL (w ++ x :: (line ++ [10])) from rfl]
    rw [hbreak, hspl, hRfl]
    have hconc : (splitL (w ++ [x])).dropLast ++ [line, []] =
        ((splitL (w ++ [x])).dropLast ++ [line]) ++ [[]] := by simp
    rw [hconc]
    simp [List.getLast?_concat, List.dropLast_concat]
  · subst h
    have hspl : splitL (line ++ [13]) = [line, []] := by
      have := splitL_no_nl line hline [13]
      rw [splitL_13_nil] at this
      simpa using this
    rw [hassoc]
    rw [show fileLines (w ++ x :: (line ++ [13])) =
        if (splitL (w ++ x :: (line ++ [13]))).getLast? = some [] then
          (splitL (w ++ x :: (line ++ [13]))).dropLast
        else splitL (w ++ x :: (line ++ [13])) from rfl]
    rw [hbreak, hspl, hRfl]
    have hconc : (splitL (w ++ [x])).dropLast ++ [line, []] =
        ((splitL (w ++ [x])).dropLast ++ [line]) ++ [[]] := by simp
    rw [hconc]
    simp [List.getLast?_concat, List.dropLast_concat]
  · subst h
    have hspl : splitL (line ++ [13, 10]) = [line, []] := by
      have := splitL_no_nl line hline [13, 10]
      rw [splitL_13_10, splitL_nil] at this
      simpa using this
    rw [hassoc]
    rw [show fileLines (w ++ x :: (line ++ [13, 10])) =
        if (splitL (w ++ x :: (line ++ [13, 10]))).getLast? = some [] then
          (splitL (w ++ x :: (line ++ [13, 10]))).dropLast
        else splitL (w ++ x :: (line ++ [13, 10])) from rfl]
    rw [hbreak, hspl, hRfl]
    have hconc : (splitL (w ++ [x])).dropLast ++ [line, []] =
        ((splitL (w ++ [x])).dropLast ++ [line]) ++ [[]] := by simp
    rw [hconc]
    simp [List.getLast?_concat, List.dropLast_concat]

theorem stripSepRev_nil : stripSepRev [] = [] := rfl

theorem stripSepRev_10_nil : stripSepRev [10] = [] := rfl

theorem stripSepRev_10_13 (r : List Nat) : stripSepRev (10 :: 13 :: r) = r := by
  rw [stripSepRev.eq_def]; simp

theorem stripSepRev_10_ne (b2 : Nat) (r : List Nat) (h : b2 ≠ 13) :
    stripSepRev (10 :: b2 :: r) = b2 :: r := by
  rw [stripSepRev.eq_def]; simp [h]

theorem stripSepRev_13 (r : List Nat) : stripSepRev (13 :: r) = r := by
  rw [stripSepRev.eq_def]; simp

theorem stripSepRev_other (b : Nat) (r : List Nat) (h10 : b ≠ 10) (h13 : b ≠ 13) :
    stripSepRev (b :: r) = b :: r := by
  rw [stripSepRev.eq_def]; simp [h10, h13]

theorem stripSepRev_inv (r : List Nat) :
    (stripSepRev r = r ∧ (r = [] ∨ isNL (r.headD 0) = false))
    ∨ (r = 10 :: stripSepRev r ∧ (stripSepRev r).headD 0 ≠ 13)
    ∨ (r = 13 :: stripSepRev r)
    ∨ (r = 10 :: 13 :: stripSepRev r) := by
  match r with
  | [] => exact Or.inl ⟨rfl, Or.inl rfl⟩
  | [b] =>
    by_cases h10 : b = 10
    · subst h10
      exact Or.inr (Or.inl ⟨by rw [stripSepRev_10_nil], by rw [stripSepRev_10_nil]; simp⟩)
    · by_cases h13 : b = 13
      · subst h13
        exact Or.inr (Or.inr (Or.inl (by rw [stripSepRev_13])))
      · refine Or.inl ⟨stripSepRev_other b [] h10 h13, Or.inr ?_⟩
        simp [isNL_false_iff, h10, h13]
  | b :: b2 :: t =>
    by_cases h10 : b = 10
    · subst h10
      by_cases h13 : b2 = 13
      · subst h13
        exact Or.inr (Or.inr (Or.inr (by rw [stripSepRev_10_13])))
      · refine Or.inr (Or.inl ⟨by rw [stripSepRev_10_ne b2 t h13], ?_⟩)
        rw [stripSepRev_10_ne b2 t h13]
        simpa using h13
    · by_cases h13 : b = 13
      · subst h13
        exact Or.inr (Or.inr (Or.inl (by rw [stripSepRev_13])))
      · refine Or.inl ⟨stripSepRev_other b (b2 :: t) h10 h13, Or.inr ?_⟩
        simp [isNL_false_iff, h10, h13]

theorem stripSepRev_shape (p : List Nat) (h : (stripSepRev p).any isNL = true) :
    ∃ a b t, p = a :: b :: t := by
  match p with
  | [] => rw [stripSepRev_nil] at h; simp at h
  | [a] =>
    by_cases h10 : a = 10
    · subst h10; rw [stripSepRev_10_nil] at h; simp at h
    · by_cases h13 : a = 13
      · subst h13; rw [stripSepRev_13] at h; simp at h
      · rw [stripSepRev_other a [] h10 h13] at h
        simp only [List.any_cons, List.any_nil, Bool.or_false] at h
        rw [(isNL_false_iff a).mpr ⟨h10, h13⟩] at h
        exact absurd h (by simp)
  | a :: b :: t => exact ⟨a, b, t, rfl⟩

theorem stripSepRev_append (p q : List Nat) (h : (stripSepRev p).any isNL = true) :
    stripSepRev (p ++ q) = stripSepRev p ++ q := by
  obtain ⟨a, b, t, hp⟩ := stripSepRev_shape p h
  subst hp
  by_cases h10 : a = 10
  · subst h10
    by_cases h13 : b = 13
    · subst h13
      rw [stripSepRev_10_13]
      show stripSepRev (10 :: 13 :: (t ++ q)) = t ++ q
      rw [stripSepRev_10_13]
    · rw [stripSepRev_10_ne b t h13]
      show stripSepRev (10 :: b :: (t ++ q)) = (b :: t) ++ q
      rw [stripSepRev_10_ne b _ h13]
      rfl
  · by_cases h13 : a = 13
    · subst h13
      rw [stripSepRev_13]
      show stripSepRev (13 :: (b :: t ++ q)) = b :: t ++ q
      rw [stripSepRev_13]
    · rw [stripSepRev_other a _ h10 h13]
      show stripSepRev (a :: (b :: t ++ q)) = a :: b :: t ++ q
      rw [stripSepRev_other a _ h10 h13]
      rfl

theorem takeWhile_append_any (l q : List Nat) (h : l.any isNL = true) :
    (l ++ q).takeWhile (fun y => !isNL y) = l.takeWhile (fun y => !isNL y) ∧
      (l ++ q).dropWhile (fun y => !isNL y) = l.dropWhile (fun y => !isNL y) ++ q := by
  induction l with
  | nil => simp at h
  | cons a l2 ih =>
    cases ha : isNL a with
    | true =>
      rw [List.cons_append, List.takeWhile_cons, List.takeWhile_cons,
        List.dropWhile_cons, List.dropWhile_cons]
      simp [ha]
    | false =>
      simp only [List.any_cons, ha, Bool.false_or] at h
      rw [List.cons_append, List.takeWhile_cons, List.takeWhile_cons,
        List.dropWhile_cons, List.dropWhile_cons]
      simp only [ha, Bool.not_false, if_true]
      exact ⟨by rw [(ih h).1], by rw [(ih h).2]⟩

theorem dropWhile_head_false {α : Type} (p : α → Bool) (l : List α) (x : α) (xs : List α)
    (h : l.dropWhile p = x :: xs) : p x = false := by
  induction l with
  | nil => simp at h
  | cons a l2 ih =>
    rw [List.dropWhile_cons] at h
    by_cases hpa : p a = true
    · rw [if_pos hpa] at h
      exact ih h
    · rw [if_neg hpa] at h
      cases h
      exact Bool.not_eq_true _ ▸ (by simpa using hpa)

theorem fileLines_nil : fileLines [] = [] := by
  simp [fileLines, splitL_nil]

theorem return_line_yes (b : BufferWorkSpace)
    (h : (stripSepRev b.pending.reverse).dropWhile (fun y => !isNL y) ≠ []) :
    return_line b =
      (((stripSepRev b.pending.reverse).takeWhile (fun y => !isNL y)).reverse,
        { b with pending :=
            ((stripSepRev b.pending.reverse).dropWhile (fun y => !isNL y)).reverse }) := by
  simp only [return_line]
  rw [if_neg (by simpa [List.isEmpty_iff] using h)]

theorem return_line_no (b : BufferWorkSpace)
    (h : (stripSepRev b.pending.reverse).dropWhile (fun y => !isNL y) = []) :
    return_line b =
      ((stripSepRev b.pending.reverse).reverse, { b with pending := [] }) := by
  simp only [return_line]
  rw [if_pos (by simpa [List.isEmpty_iff] using h)]


theorem fileLines_peel_rev (q r : List Nat)
    (hA : (stripSepRev r).any isNL = true) :
    fileLines (q ++ r.reverse) =
      fileLines (q ++ ((stripSepRev r).dropWhile (fun y => !isNL y)).reverse) ++
        [((stripSepRev r).takeWhile (fun y => !isNL y)).reverse] ∧
    ((stripSepRev r).dropWhile (fun y => !isNL y)).length < r.length := by
  have hstripR : stripSepRev (r ++ q.reverse) = stripSepRev r ++ q.reverse :=
    stripSepRev_append r q.reverse hA
  obtain ⟨t, ht⟩ : ∃ t, stripSepRev r = t := ⟨_, rfl⟩
  rw [ht] at hA hstripR ⊢
  obtain ⟨lrev, hlrev⟩ : ∃ l, t.takeWhile (fun y => !isNL y) = l := ⟨_, rfl⟩
  obtain ⟨rrest, hrrest⟩ : ∃ l, t.dropWhile (fun y => !isNL y) = l := ⟨_, rfl⟩
  rw [hlrev, hrrest]
  have hrne : rrest ≠ [] := by
    intro hcon
    rw [hcon] at hrrest
    have hall := List.dropWhile_eq_nil_iff.mp hrrest
    have hf : t.any isNL = false := by
      rw [List.any_eq_false]
      intro y hy2
      simpa using hall y hy2
    rw [hf] at hA
    exact absurd hA (by simp)
  obtain ⟨x, rr, hxrr⟩ : ∃ x rr, rrest = x :: rr := by
    cases h2 : rrest with
    | nil => exact absurd h2 hrne
    | cons x rr => exact ⟨x, rr, rfl⟩
  subst hxrr
  have hxNL : isNL x = true := by
    have := dropWhile_head_false (fun y => !isNL y) t x rr hrrest
    simpa using this
  have hsplitT : lrev ++ (x :: rr) = t := by
    rw [← hlrev, ← hrrest]
    exact List.takeWhile_append_dropWhile _ t
  have htne : t ≠ [] := by
    intro hcon
    rw [hcon] at hsplitT
    have := (List.append_eq_nil.mp hsplitT).2
    simp at this
  have hrne2 : r ≠ [] := by
    intro hcon
    rw [hcon, stripSepRev_nil] at ht
    exact htne ht.symm
  have hRne : r ++ q.reverse ≠ [] := by
    intro hcon
    exact hrne2 (List.append_eq_nil.mp hcon).1
  have hinv : ∃ sRev, r ++ q.reverse = sRev ++ (t ++ q.reverse) ∧
      (sRev = [] ∨ sRev = [10] ∨ sRev = [13] ∨ sRev = [10, 13]) ∧
      (sRev = [10] → (t ++ q.reverse).headD 0 ≠ 13) ∧
      (sRev = [] → isNL ((t ++ q.reverse).headD 0) = false) := by
    rcases stripSepRev_inv (r ++ q.reverse) with ⟨he, hh⟩ | ⟨he, hh⟩ | he | he
    · have heq : r ++ q.reverse = t ++ q.reverse := he.symm.trans hstripR
      refine ⟨[], by rw [List.nil_append]; exact heq, Or.inl rfl, by simp, ?_⟩
      intro _
      rcases hh with hcon | hh2
      · exact absurd hcon hRne
      · rw [heq] at hh2
        exact hh2
    · rw [hstripR] at he hh
      exact ⟨[10], by simpa using he, Or.inr (Or.inl rfl), fun _ => hh, by simp⟩
    · rw [hstripR] at he
      exact ⟨[13], by simpa using he, Or.inr (Or.inr (Or.inl rfl)), by simp, by simp⟩
    · rw [hstripR] at he
      exact ⟨[10, 13], by simpa using he, Or.inr (Or.inr (Or.inr rfl)), by simp, by simp⟩
  obtain ⟨sRev, hR, hsc, hg10, hg0⟩ := hinv
  have hline : (lrev.reverse).all (fun y => !isNL y) = true := by
    rw [List.all_reverse, List.all_eq_true]
    intro y hy2
    rw [← hlrev] at hy2
    have h3 := List.mem_takeWhile_imp hy2
    simpa using h3
  have hheadt : lrev = [] → (t ++ q.reverse).headD 0 = x := by
    intro hcon
    rw [hcon, List.nil_append] at hsplitT
    rw [← hsplitT]
    rfl
  have hguard : sRev.reverse = [10] → lrev.reverse = [] → x ≠ 13 := by
    intro hs10 hl0
    have hsRev : sRev = [10] := by
      rcases hsc with h | h | h | h <;> subst h <;> simp_all
    have hlrev0 : lrev = [] := by simpa using congrArg List.reverse hl0
    have h3 := hg10 hsRev
    rw [hheadt hlrev0] at h3
    exact h3
  have hnil2 : sRev.reverse = [] → lrev.reverse ≠ [] := by
    intro hs0 hl0
    have hsRev : sRev = [] := by simpa using congrArg List.reverse hs0
    have hlrev0 : lrev = [] := by simpa using congrArg List.reverse hl0
    have h3 := hg0 hsRev
    rw [hheadt hlrev0, hxNL] at h3
    exact absurd h3 (by simp)
  have hscases : sRev.reverse = [] ∨ sRev.reverse = [10] ∨ sRev.reverse = [13] ∨
      sRev.reverse = [13, 10] := by
    rcases hsc with h | h | h | h <;> subst h <;> simp
  have hpeel := fileLines_peel (q ++ rr.reverse) x hxNL lrev.reverse sRev.reverse
    hline hscases hguard hnil2
  have hα : q ++ r.reverse =
      ((q ++ rr.reverse) ++ [x]) ++ (lrev.reverse ++ sRev.reverse) := by
    have h1 := congrArg List.reverse hR
    rw [← hsplitT] at h1
    simp only [List.reverse_append, List.reverse_reverse, List.reverse_cons,
      List.append_assoc, List.nil_append] at h1
    simpa [List.append_assoc] using h1
  constructor
  · rw [hα, hpeel, List.reverse_cons, ← List.append_assoc]
  · have hl1 := congrArg List.length hR
    simp only [List.length_append, List.length_reverse] at hl1
    have hl2 := congrArg List.length hsplitT
    simp only [List.length_append, List.length_cons] at hl2
    have hpos : 0 < sRev.length + lrev.length := by
      rcases hsc with h | h | h | h
      · have hlrne : lrev.reverse ≠ [] := hnil2 (by simp [h])
        have hlne : lrev ≠ [] := by
          intro hcon
          exact hlrne (by simp [hcon])
        have := List.length_pos.mpr hlne
        omega
      · subst h
        simp only [List.length_cons, List.length_nil]
        omega
      · subst h
        simp only [List.length_cons, List.length_nil]
        omega
      · subst h
        simp only [List.length_cons, List.length_nil]
        omega
    simp only [List.length_cons]
    omega

theorem fileLines_last_rev (r : List Nat) (hrne : r ≠ [])
    (hA : (stripSepRev r).any isNL = false) :
    fileLines r.reverse = [(stripSepRev r).reverse] := by
  obtain ⟨t, ht⟩ : ∃ t, stripSepRev r = t := ⟨_, rfl⟩
  rw [ht] at hA ⊢
  have hTall : (t.reverse).all (fun y => !isNL y) = true := by
    rw [List.all_reverse, List.all_eq_true]
    intro y hy2
    have := List.any_eq_false.mp hA y hy2
    simpa using this
  have hinv : ∃ sRev, r = sRev ++ t ∧
      (sRev.reverse = [] ∨ sRev.reverse = [10] ∨ sRev.reverse = [13] ∨
        sRev.reverse = [13, 10]) := by
    rcases stripSepRev_inv r with ⟨he, _⟩ | ⟨he, _⟩ | he | he
    · rw [ht] at he
      exact ⟨[], by rw [List.nil_append, he], Or.inl rfl⟩
    · rw [ht] at he
      exact ⟨[10], by simpa using he, Or.inr (Or.inl rfl)⟩
    · rw [ht] at he
      exact ⟨[13], by simpa using he, Or.inr (Or.inr (Or.inl rfl))⟩
    · rw [ht] at he
      exact ⟨[10, 13], by simpa using he, Or.inr (Or.inr (Or.inr rfl))⟩
  obtain ⟨sRev, hRs, hsc⟩ := hinv
  have hrev : r.reverse = t.reverse ++ sRev.reverse := by
    rw [hRs, List.reverse_append]
  rw [hrev]
  refine fileLines_no_sep t.reverse sRev.reverse hTall hsc ?_
  rw [← hrev]
  simpa using hrne

theorem peel_correct (file : List Nat) (b : BufferWorkSpace)
    (hy : has_yieldable_line b = true)
    (hne : file.take b.cursor ++ b.pending ≠ []) :
    fileLines (file.take b.cursor ++ b.pending)
      = fileLines (file.take (return_line b).2.cursor ++ (return_line b).2.pending)
          ++ [(return_line b).1] ∧
    (return_line b).2.cursor = b.cursor ∧
    (return_line b).2.chunk_size = b.chunk_size ∧
    (return_line b).2.pending.length < b.pending.length := by
  by_cases hA : (stripSepRev b.pending.reverse).any isNL = true
  · have hmain := fileLines_peel_rev (file.take b.cursor) b.pending.reverse hA
    rw [List.reverse_reverse] at hmain
    have hrne : (stripSepRev b.pending.reverse).dropWhile (fun y => !isNL y) ≠ [] := by
      intro hcon
      have hall := List.dropWhile_eq_nil_iff.mp hcon
      have hf : (stripSepRev b.pending.reverse).any isNL = false := by
        rw [List.any_eq_false]
        intro y hy2
        simpa using hall y hy2
      rw [hf] at hA
      exact absurd hA (by simp)
    have hret := return_line_yes b hrne
    rw [hret]
    refine ⟨hmain.1, rfl, rfl, ?_⟩
    have h2 := hmain.2
    simpa using h2
  · simp only [Bool.not_eq_true] at hA
    have hdw : (stripSepRev b.pending.reverse).dropWhile (fun y => !isNL y) = [] := by
      rw [List.dropWhile_eq_nil_iff]
      intro y hy2
      have := List.any_eq_false.mp hA y hy2
      simpa using this
    have hret := return_line_no b hdw
    have hcur0 : b.cursor = 0 := by
      rw [has_yieldable_line, hA] at hy
      simpa using hy
    have hpne : b.pending ≠ [] := by
      intro hcon
      rw [hcur0, List.take_zero, List.nil_append] at hne
      exact hne hcon
    have hlast := fileLines_last_rev b.pending.reverse (by simpa using hpne) hA
    rw [List.reverse_reverse] at hlast
    rw [hret]
    refine ⟨?_, rfl, rfl, ?_⟩
    · rw [hcur0, List.take_zero, List.nil_append, List.nil_append, hlast,
        fileLines_nil, List.nil_append]
    · simpa using List.length_pos.mpr hpne

theorem read_until_ok (file : List Nat) :
    ∀ (n : Nat) (b : BufferWorkSpace), b.cursor < n → 1 ≤ b.chunk_size →
      b.cursor ≤ file.length →
      ∃ b1, read_until_aux file n b = .ok b1 ∧ has_yieldable_line b1 = true ∧
        b1.cursor ≤ file.length ∧ b1.chunk_size = b.chunk_size ∧
        file.take b1.cursor ++ b1.pending = file.take b.cursor ++ b.pending := by
  intro n
  induction n with
  | zero =>
    intro b hn
    omega
  | succ n ih =>
    intro b hn hchunk hcur
    rw [read_until_aux]
    by_cases hy : has_yieldable_line b = true
    · rw [if_pos hy]
      exact ⟨b, rfl, hy, hcur, rfl, rfl⟩
    · rw [if_neg hy]
      have hc0 : b.cursor ≠ 0 := by
        intro hcon
        apply hy
        rw [has_yieldable_line, hcon]
        simp
      have hrs : min b.chunk_size b.cursor ≠ 0 := by
        omega
      have hrsle : min b.chunk_size b.cursor ≤ b.cursor := Nat.min_le_right _ _
      have hlen : (readAt file (b.cursor - min b.chunk_size b.cursor)
          (min b.chunk_size b.cursor)).length = min b.chunk_size b.cursor := by
        rw [readAt, List.length_take, List.length_drop]
        omega
      have hpull : pull_next_chunk file b = .ok
          { chunk_size := b.chunk_size, cursor := b.cursor - min b.chunk_size b.cursor,
            pending := readAt file (b.cursor - min b.chunk_size b.cursor)
              (min b.chunk_size b.cursor) ++ b.pending } := by
        simp only [pull_next_chunk]
        rw [if_neg hrs, if_pos hlen]
      rw [hpull]
      obtain ⟨b1, h1, h2, h3, h4, h5⟩ :=
        ih { chunk_size := b.chunk_size,
             cursor := b.cursor - min b.chunk_size b.cursor,
             pending := readAt file (b.cursor - min b.chunk_size b.cursor)
               (min b.chunk_size b.cursor) ++ b.pending }
          (by show b.cursor - min b.chunk_size b.cursor < n; omega)
          (by show 1 ≤ b.chunk_size; exact hchunk)
          (by show b.cursor - min b.chunk_size b.cursor ≤ file.length; omega)
      refine ⟨b1, h1, h2, h3, h4, ?_⟩
      rw [h5]
      show file.take (b.cursor - min b.chunk_size b.cursor) ++
        (readAt file (b.cursor - min b.chunk_size b.cursor) (min b.chunk_size b.cursor)
          ++ b.pending) = file.take b.cursor ++ b.pending
      rw [← List.append_assoc, readAt, ← List.take_add]
      rw [show b.cursor - min b.chunk_size b.cursor + min b.chunk_size b.cursor = b.cursor
        by omega]

theorem iterate_eq (fuel : Nat) :
    ∀ (it : FileReadBackwardsIterator),
      it.closed = false → 1 ≤ it.buf.chunk_size → it.buf.cursor ≤ it.file.length →
      it.buf.cursor + it.buf.pending.length < fuel →
      iterate fuel it =
        ((fileLines (it.file.take it.buf.cursor ++ it.buf.pending)).reverse.map
          (fun l => outcomeOf it.encoding l)) ++ [NextOutcome.stop] := by
  induction fuel with
  | zero =>
    intro it _ _ _ hf
    omega
  | succ fuel ih =>
    intro it hcl hchunk hcur hf
    by_cases hev : has_returned_every_line it.buf = true
    · have hev2 := hev
      rw [has_returned_every_line, Bool.and_eq_true] at hev2
      have hp : it.buf.pending = [] := List.isEmpty_iff.mp hev2.1
      have hc : it.buf.cursor = 0 := by
        have := hev2.2
        simpa using this
      have hnext : it.next = (.stop, it.close) := by
        simp only [FileReadBackwardsIterator.next]
        rw [if_neg (by simp [hcl]), if_pos hev]
      simp only [iterate]
      rw [hnext]
      simp [hp, hc, fileLines_nil]
    · have hne : it.file.take it.buf.cursor ++ it.buf.pending ≠ [] := by
        intro hcon
        obtain ⟨ht0, hp0⟩ := List.append_eq_nil.mp hcon
        apply hev
        rw [has_returned_every_line, Bool.and_eq_true]
        have hc0 : it.buf.cursor = 0 := by
          rcases List.take_eq_nil_iff.mp ht0 with h | h
          · exact h
          · rw [h] at hcur
            simpa using hcur
        exact ⟨by simp [hp0], by simp [hc0]⟩
      obtain ⟨b1, hr1, hy1, hc1, hch1, hα1⟩ :=
        read_until_ok it.file (it.buf.cursor + 1) it.buf (by omega) hchunk hcur
      have hne1 : it.file.take b1.cursor ++ b1.pending ≠ [] := by
        rw [hα1]
        exact hne
      obtain ⟨hfl, hcur2, hch2, hlen2⟩ := peel_correct it.file b1 hy1 hne1
      have e1 : b1.cursor + b1.pending.length =
          it.buf.cursor + it.buf.pending.length := by
        have h := congrArg List.length hα1
        simp only [List.length_append, List.length_take] at h
        omega
      have hfb : (return_line b1).2.cursor + (return_line b1).2.pending.length
          < fuel := by
        rw [hcur2]
        omega
      have hih := ih { it with buf := (return_line b1).2 }
        (by show it.closed = false; exact hcl)
        (by show 1 ≤ (return_line b1).2.chunk_size; rw [hch2, hch1]; exact hchunk)
        (by show (return_line b1).2.cursor ≤ it.file.length; rw [hcur2]; exact hc1)
        hfb
      cases hdec : decodeBytes it.encoding (return_line b1).1 with
      | some s =>
        have hnext : it.next = (.line s, { it with buf := (return_line b1).2 }) := by
          simp only [FileReadBackwardsIterator.next, read_until_yieldable]
          rw [if_neg (by simp [hcl]), if_neg hev, hr1]
          simp only [hdec]
        simp only [iterate]
        rw [hnext]
        show NextOutcome.line s :: iterate fuel { it with buf := (return_line b1).2 } = _
        rw [hih]
        show NextOutcome.line s ::
          ((fileLines (it.file.take (return_line b1).2.cursor ++
            (return_line b1).2.pending)).reverse.map (fun l => outcomeOf it.encoding l)
              ++ [NextOutcome.stop]) = _
        rw [← hα1, hfl, hcur2, List.reverse_concat, List.map_cons]
        simp [outcomeOf, hdec]
      | none =>
        have hnext : it.next =
            (.err .decodeErr, { it with buf := (return_line b1).2 }) := by
          simp only [FileReadBackwardsIterator.next, read_until_yieldable]
          rw [if_neg (by simp [hcl]), if_neg hev, hr1]
          simp only [hdec]
        simp only [iterate]
        rw [hnext]
        show NextOutcome.err .decodeErr ::
          iterate fuel { it with buf := (return_line b1).2 } = _
        rw [hih]
        show NextOutcome.err .decodeErr ::
          ((fileLines (it.file.take (return_line b1).2.cursor ++
            (return_line b1).2.pending)).reverse.map (fun l => outcomeOf it.encoding l)
              ++ [NextOutcome.stop]) = _
        rw [← hα1, hfl, hcur2, List.reverse_concat, List.map_cons]
        simp [outcomeOf, hdec]

/-- C1: for every file content and every chunk size at least 1, iterating
the reader yields exactly the file's lines (`fileLines`) in reverse
physical order, each decoded and without its trailing separator, followed
by the end-of-sequence signal.  The right-hand side does not mention the
chunk size, so the output is finite, repeats no line occurrence, and is
identical for every choice of chunk size. -/
theorem next_yields_reverse_lines_for_every_chunk_size
    (file : List Nat) (enc : String) (chunk : Nat) (dec : List Nat → String)
    (hchunk : 1 ≤ chunk)
    (hdec : ∀ l ∈ fileLines file, decodeBytes enc l = some (dec l)) :
    iterate (file.length + 1) (mkIterator file enc chunk) =
      ((fileLines file).reverse.map (fun l => NextOutcome.line (dec l))) ++
        [NextOutcome.stop] := by
  have h := iterate_eq (file.length + 1) (mkIterator file enc chunk)
    rfl hchunk (Nat.le_refl _)
    (by show file.length + ([] : List Nat).length < file.length + 1; simp)
  rw [h]
  rw [show (mkIterator file enc chunk).file.take (mkIterator file enc chunk).buf.cursor
      ++ (mkIterator file enc chunk).buf.pending = file from by
    show file.take file.length ++ [] = file
    rw [List.append_nil, List.take_length]]
  congr 1
  apply List.map_congr_left
  intro l hl
  rw [List.mem_reverse] at hl
  show outcomeOf enc l = NextOutcome.line (dec l)
  rw [outcomeOf, hdec l hl]

/-- Witness for C1 on the concrete file "x\ny" with chunk size 2: the
reader yields "y" then "x" then stops. -/
theorem next_yields_reverse_lines_witness :
    (1 ≤ 2 ∧ ∀ l ∈ fileLines [120, 10, 121],
      decodeBytes "utf-8" l = some ((decodeBytes "utf-8" l).getD "")) ∧
    iterate 4 (mkIterator [120, 10, 121] "utf-8" 2) =
      ((fileLines [120, 10, 121]).reverse.map
        (fun l => NextOutcome.line ((decodeBytes "utf-8" l).getD ""))) ++
          [NextOutcome.stop] :=
  ⟨⟨by decide, by decide⟩,
    next_yields_reverse_lines_for_every_chunk_size [120, 10, 121] "utf-8" 2
      (fun l => (decodeBytes "utf-8" l).getD "") (by decide) (by decide)⟩

/-- C2: the spec's canonical edge inputs, for every chunk size at least
1: the empty file yields zero lines; the file "a" (one line, no trailing
separator) yields exactly "a"; the file "a\n" yields exactly "a" and no
extra empty line; the file "a\n\nb" yields "b", "" and "a" in that
order. -/
theorem next_edge_case_outputs (chunk : Nat) (hchunk : 1 ≤ chunk) :
    iterate 1 (mkIterator [] "utf-8" chunk) = [NextOutcome.stop] ∧
    iterate 2 (mkIterator [97] "utf-8" chunk) =
      [NextOutcome.line "a", NextOutcome.stop] ∧
    iterate 3 (mkIterator [97, 10] "utf-8" chunk) =
      [NextOutcome.line "a", NextOutcome.stop] ∧
    iterate 5 (mkIterator [97, 10, 10, 98] "utf-8" chunk) =
      [NextOutcome.line "b", NextOutcome.line "", NextOutcome.line "a",
        NextOutcome.stop] := by
  refine ⟨?_, ?_, ?_, ?_⟩
  · have h := iterate_eq 1 (mkIterator [] "utf-8" chunk) rfl hchunk
      (by simp [mkIterator, BufferWorkSpace.init])
      (by simp [mkIterator, BufferWorkSpace.init])
    rw [h]
    simp only [mkIterator, BufferWorkSpace.init]
    decide
  · have h := iterate_eq 2 (mkIterator [97] "utf-8" chunk) rfl hchunk
      (by simp [mkIterator, BufferWorkSpace.init])
      (by simp [mkIterator, BufferWorkSpace.init])
    rw [h]
    simp only [mkIterator, BufferWorkSpace.init]
    decide
  · have h := iterate_eq 3 (mkIterator [97, 10] "utf-8" chunk) rfl hchunk
      (by simp [mkIterator, BufferWorkSpace.init])
      (by simp [mkIterator, BufferWorkSpace.init])
    rw [h]
    simp only [mkIterator, BufferWorkSpace.init]
    decide
  · have h := iterate_eq 5 (mkIterator [97, 10, 10, 98] "utf-8" chunk) rfl hchunk
      (by simp [mkIterator, BufferWorkSpace.init])
      (by simp [mkIterator, BufferWorkSpace.init])
    rw [h]
    simp only [mkIterator, BufferWorkSpace.init]
    decide

/-- Witness for C2 at chunk size 1. -/
theorem next_edge_case_outputs_witness :
    1 ≤ 1 ∧
    (iterate 1 (mkIterator [] "utf-8" 1) = [NextOutcome.stop] ∧
     iterate 2 (mkIterator [97] "utf-8" 1) =
       [NextOutcome.line "a", NextOutcome.stop] ∧
     iterate 3 (mkIterator [97, 10] "utf-8" 1) =
       [NextOutcome.line "a", NextOutcome.stop] ∧
     iterate 5 (mkIterator [97, 10, 10, 98] "utf-8" 1) =
       [NextOutcome.line "b", NextOutcome.line "", NextOutcome.line "a",
         NextOutcome.stop]) :=
  ⟨by decide, next_edge_case_outputs 1 (by decide)⟩

/-- The string a latin-1 byte list decodes to. -/
def latin1Str (l : List Nat) : String := String.mk (l.map (fun b => Char.ofNat b))

theorem latin1DecodeAux_all (l : List Nat)
    (h : l.all (fun b => decide (b < 256)) = true) :
    latin1DecodeAux l = some (l.map (fun b => Char.ofNat b)) := by
  induction l with
  | nil => rfl
  | cons b t ih =>
    simp only [List.all_cons, Bool.and_eq_true, decide_eq_true_eq] at h
    simp only [latin1DecodeAux, if_pos h.1]
    rw [ih h.2]
    rfl

theorem decode_latin1 (l : List Nat) (h : l.all (fun b => decide (b < 256)) = true) :
    decodeBytes "latin-1" l = some (latin1Str l) := by
  rw [decodeBytes, if_neg (by decide), if_neg (by decide), if_pos rfl,
    latin1DecodeAux_all l h]
  rfl

theorem fileLines_two_lines (u v sep : List Nat)
    (hu : u.all (fun y => !isNL y) = true) (hv : v.all (fun y => !isNL y) = true)
    (hvne : v ≠ [])
    (hsep : sep = [10] ∨ sep = [13] ∨ sep = [13, 10]) :
    fileLines (u ++ sep ++ v) = [u, v] := by
  have hsplv : splitL v = [v] := by
    have := splitL_no_nl v hv []
    simpa [splitL_nil] using this
  have hsafe : v.head? ≠ some 10 := by
    cases v with
    | nil => exact absurd rfl hvne
    | cons c v2 =>
      simp only [List.all_cons, Bool.and_eq_true, Bool.not_eq_true'] at hv
      have := (isNL_false_iff c).mp hv.1
      simp [this.1]
  have hsep2 : splitL (sep ++ v) = [] :: splitL v := by
    rcases hsep with h | h | h
    · subst h
      exact splitL_10 v
    · subst h
      exact splitL_sep_cons 13 (by decide) v (fun _ => hsafe)
    · subst h
      exact splitL_13_10 v
  have hmain := splitL_no_nl u hu (sep ++ v)
  rw [hsep2, hsplv] at hmain
  rw [fileLines, List.append_assoc, hmain]
  simp [hvne]

/-- C4: line-separator handling.  A single `\n`, a single lone `\r`, or
the pair `\r\n` between two separator-free byte runs `u` and `v`
separates exactly the lines `u` and `v`: the reader emits `v` then `u`,
with no separator byte (in particular no `\r` of a consumed `\r\n`)
leaked into either emitted line — for every chunk size, so also when the
`\r\n` pair is split across a chunk boundary.  The recognized separator
set is baked into the buffer operations at construction and cannot
change thereafter. -/
theorem separator_handling (u v sep : List Nat) (chunk : Nat)
    (hchunk : 1 ≤ chunk)
    (huNL : u.all (fun y => !isNL y) = true)
    (hu256 : u.all (fun b => decide (b < 256)) = true)
    (hvNL : v.all (fun y => !isNL y) = true)
    (hv256 : v.all (fun b => decide (b < 256)) = true)
    (hvne : v ≠ [])
    (hsep : sep = [10] ∨ sep = [13] ∨ sep = [13, 10]) :
    iterate ((u ++ sep ++ v).length + 1)
        (mkIterator (u ++ sep ++ v) "latin-1" chunk) =
      [NextOutcome.line (latin1Str v), NextOutcome.line (latin1Str u),
        NextOutcome.stop] := by
  have h := iterate_eq ((u ++ sep ++ v).length + 1)
    (mkIterator (u ++ sep ++ v) "latin-1" chunk) rfl hchunk (Nat.le_refl _)
    (by show (u ++ sep ++ v).length + ([] : List Nat).length <
          (u ++ sep ++ v).length + 1
        simp)
  rw [h]
  rw [show (mkIterator (u ++ sep ++ v) "latin-1" chunk).file.take
        (mkIterator (u ++ sep ++ v) "latin-1" chunk).buf.cursor
      ++ (mkIterator (u ++ sep ++ v) "latin-1" chunk).buf.pending
      = u ++ sep ++ v from by
    show (u ++ sep ++ v).take (u ++ sep ++ v).length ++ [] = u ++ sep ++ v
    rw [List.append_nil, List.take_length]]
  rw [fileLines_two_lines u v sep huNL hvNL hvne hsep]
  show List.map (fun l => outcomeOf "latin-1" l) [u, v].reverse ++
    [NextOutcome.stop] = _
  have hdv := decode_latin1 v hv256
  have hdu := decode_latin1 u hu256
  simp [outcomeOf, hdv, hdu]

/-- Witness for C4: the file "a\r\nb" read with chunk size 1 (so the
`\r\n` pair is split across a chunk boundary) yields "b" then "a", and
the `\r` is not leaked. -/
theorem separator_handling_witness :
    (1 ≤ 1 ∧ ([97] : List Nat).all (fun y => !isNL y) = true ∧
      ([98] : List Nat).all (fun y => !isNL y) = true ∧ ([98] : List Nat) ≠ [] ∧
      (([13, 10] : List Nat) = [10] ∨ ([13, 10] : List Nat) = [13] ∨
        ([13, 10] : List Nat) = [13, 10])) ∧
    iterate 5 (mkIterator [97, 13, 10, 98] "latin-1" 1) =
      [NextOutcome.line "b", NextOutcome.line "a", NextOutcome.stop] := by
  refine ⟨⟨by decide, by decide, by decide, by decide, by decide⟩, ?_⟩
  have h := separator_handling [97] [98] [13, 10] 1 (by decide) (by decide)
    (by decide) (by decide) (by decide) (by decide) (by decide)
  exact h.trans (by decide)

/-- C5: exhaustion and closure are terminal.  A `next` call on a closed
iterator signals end-of-sequence and leaves the state unchanged; the
`next` call that first observes `has_returned_every_line` closes the
handle and signals end-of-sequence; `close` closes the handle; after a
`close`, every run of further `next` calls yields only the
end-of-sequence signal, never an error; and no step leaves the closed or
the exhausted condition. -/
theorem exhaustion_and_closure_terminal (it : FileReadBackwardsIterator) :
    (it.closed = true → it.next = (NextOutcome.stop, it)) ∧
    (it.closed = false → has_returned_every_line it.buf = true →
      it.next = (NextOutcome.stop, it.close)) ∧
    it.close.closed = true ∧
    (∀ n : Nat, iterate (n + 1) it.close = [NextOutcome.stop]) ∧
    (it.closed = true → (it.next).2 = it) ∧
    (has_returned_every_line it.buf = true →
      has_returned_every_line ((it.next).2).buf = true) := by
  have hclosed : ∀ jt : FileReadBackwardsIterator, jt.closed = true →
      jt.next = (NextOutcome.stop, jt) := by
    intro jt h
    simp only [FileReadBackwardsIterator.next]
    rw [if_pos h]
  have hstep : it.closed = false → has_returned_every_line it.buf = true →
      it.next = (NextOutcome.stop, it.close) := by
    intro h1 h2
    simp only [FileReadBackwardsIterator.next]
    rw [if_neg (by simp [h1]), if_pos h2]
  refine ⟨hclosed it, hstep, rfl, ?_, ?_, ?_⟩
  · intro n
    simp only [iterate]
    rw [hclosed it.close rfl]
  · intro h
    rw [hclosed it h]
  · intro h
    cases hcl : it.closed with
    | true =>
      rw [hclosed it hcl]
      exact h
    | false =>
      rw [hstep hcl h]
      exact h

/-- Witness for C5 on a concrete closed iterator. -/
theorem exhaustion_and_closure_terminal_witness :
    (mkIterator [97] "utf-8" 1).close.next =
      (NextOutcome.stop, (mkIterator [97] "utf-8" 1).close) ∧
    iterate 3 (mkIterator [97] "utf-8" 1).close = [NextOutcome.stop] := by
  have h := exhaustion_and_closure_terminal (mkIterator [97] "utf-8" 1)
  have h2 := exhaustion_and_closure_terminal ((mkIterator [97] "utf-8" 1).close)
  exact ⟨h2.1 h.2.2.1, h.2.2.2.1 2⟩

/-- C3: one call to `pull_next_chunk` on a buffer with cursor `c` and
chunk size `k`: if `min k c = 0` it is a no-op leaving the state
unchanged; otherwise it reads exactly `r = min k c` bytes at file
offsets `[c - r, c)`, prepends them to the pending buffer and sets the
cursor to `c - r`; and when the underlying read returns fewer than `r`
bytes (exactly when the file is shorter than the cursor position) the
call fails with the propagated I/O error, with no retry. -/
theorem pull_next_chunk_contract (file : List Nat) (b : BufferWorkSpace) :
    (min b.chunk_size b.cursor = 0 → pull_next_chunk file b = .ok b) ∧
    (1 ≤ min b.chunk_size b.cursor → b.cursor ≤ file.length →
      pull_next_chunk file b = .ok
        { chunk_size := b.chunk_size,
          cursor := b.cursor - min b.chunk_size b.cursor,
          pending := readAt file (b.cursor - min b.chunk_size b.cursor)
            (min b.chunk_size b.cursor) ++ b.pending } ∧
      (readAt file (b.cursor - min b.chunk_size b.cursor)
          (min b.chunk_size b.cursor)).length = min b.chunk_size b.cursor) ∧
    (1 ≤ min b.chunk_size b.cursor → file.length < b.cursor →
      pull_next_chunk file b = .error .truncatedRead) := by
  refine ⟨?_, ?_, ?_⟩
  · intro h
    simp only [pull_next_chunk]
    rw [if_pos h]
  · intro h1 h2
    have hlen : (readAt file (b.cursor - min b.chunk_size b.cursor)
        (min b.chunk_size b.cursor)).length = min b.chunk_size b.cursor := by
      rw [readAt, List.length_take, List.length_drop]
      have := Nat.min_le_right b.chunk_size b.cursor
      omega
    refine ⟨?_, hlen⟩
    simp only [pull_next_chunk]
    rw [if_neg (by omega), if_pos hlen]
  · intro h1 h2
    have hlen : (readAt file (b.cursor - min b.chunk_size b.cursor)
        (min b.chunk_size b.cursor)).length ≠ min b.chunk_size b.cursor := by
      rw [readAt, List.length_take, List.length_drop]
      have := Nat.min_le_right b.chunk_size b.cursor
      omega
    simp only [pull_next_chunk]
    rw [if_neg (by omega), if_neg hlen]

/-- Witness for C3: a pull with chunk size 2 on a 3-byte file at cursor
3 reads the last two bytes, and a pull on a buffer whose cursor lies
beyond the file's end fails with the truncated-read error. -/
theorem pull_next_chunk_contract_witness :
    pull_next_chunk [1, 2, 3] { chunk_size := 2, cursor := 3, pending := [] } =
      .ok { chunk_size := 2, cursor := 1, pending := [2, 3] } ∧
    pull_next_chunk [1, 2, 3] { chunk_size := 2, cursor := 5, pending := [] } =
      .error .truncatedRead := by
  constructor
  · have h := (pull_next_chunk_contract [1, 2, 3]
      { chunk_size := 2, cursor := 3, pending := [] }).2.1 (by decide) (by decide)
    exact h.1.trans (by rfl)
  · exact (pull_next_chunk_contract [1, 2, 3]
      { chunk_size := 2, cursor := 5, pending := [] }).2.2 (by decide) (by decide)

/-- C6: constructing a `FileReadBackwards` with an encoding whose
lowercased name is not in the allow-list fails at construction with the
descriptive `NotImplementedError` message of source lines 36-38.  The
constructor does not touch any file system state (`init` takes no file
system argument at all; files are opened only by `iter`), so the failure
precedes any file opening. -/
theorem unsupported_encoding_fails_at_construction (path enc : String) (chunk : Int)
    (h : supported_encodings.contains (strLower enc) = false) :
    FileReadBackwards.init path enc chunk =
      .error (enc ++ " encoding was not supported/tested." ++
        "Supported encodings are '" ++
        String.intercalate "," supported_encodings ++ "'") := by
  simp only [FileReadBackwards.init]
  rw [if_neg (by rw [h]; simp)]

/-- Witness for C6 with the unsupported encoding name "utf-16". -/
theorem unsupported_encoding_fails_witness :
    supported_encodings.contains (strLower "utf-16") = false ∧
    FileReadBackwards.init "x" "utf-16" 7 =
      .error ("utf-16" ++ " encoding was not supported/tested." ++
        "Supported encodings are '" ++
        String.intercalate "," supported_encodings ++ "'") :=
  ⟨by decide, unsupported_encoding_fails_at_construction "x" "utf-16" 7 (by decide)⟩

/-- C9: the constructor raises exactly when the encoding is unsupported;
neither the path nor the chunk size is validated (both are arbitrary,
including negative chunk sizes and nonexistent paths), and a bad path
fails only when an iterator is requested and the file is actually
opened. -/
theorem construction_validates_only_encoding (path enc : String) (chunk : Int) :
    ((∃ frb, FileReadBackwards.init path enc chunk = .ok frb) ↔
      supported_encodings.contains (strLower enc) = true) ∧
    (∀ fs : String → Option (List Nat), ∀ frb : FileReadBackwards,
      FileReadBackwards.init path enc chunk = .ok frb →
      (fs frb.path = none → FileReadBackwards.iter fs frb = .error .fileNotFound) ∧
      (∀ bytes, fs frb.path = some bytes →
        FileReadBackwards.iter fs frb =
          .ok (mkIterator bytes frb.encoding frb.chunk_size.toNat))) := by
  constructor
  · constructor
    · rintro ⟨frb, hfrb⟩
      by_cases h : supported_encodings.contains (strLower enc) = true
      · exact h
      · simp only [FileReadBackwards.init] at hfrb
        rw [if_neg h] at hfrb
        exact absurd hfrb (by simp)
    · intro h
      refine ⟨{ path := path, encoding := strLower enc, chunk_size := chunk }, ?_⟩
      simp only [FileReadBackwards.init]
      rw [if_pos h]
  · intro fs frb hfrb
    constructor
    · intro hnone
      simp only [FileReadBackwards.iter]
      rw [hnone]
    · intro bytes hsome
      simp only [FileReadBackwards.iter]
      rw [hsome]

/-- Witness for C9: encoding "ascii" with negative chunk size -5 and an
arbitrary path is accepted at construction, and the failure for a
missing path happens at `iter` (file-opening) time. -/
theorem construction_validates_only_encoding_witness :
    (∃ frb, FileReadBackwards.init "p" "ascii" (-5) = .ok frb) ∧
    FileReadBackwards.iter (fun _ => none)
      { path := "p", encoding := "ascii", chunk_size := -5 } =
        .error .fileNotFound := by
  have h := construction_validates_only_encoding "p" "ascii" (-5)
  refine ⟨h.1.mpr (by decide), ?_⟩
  exact (h.2 (fun _ => none)
    { path := "p", encoding := "ascii", chunk_size := -5 } (by rfl)).1 rfl

/-- C10: encoding validation is case-insensitive.  Construction succeeds
exactly when the lowercased encoding name is one of "utf-8", "ascii",
"latin-1"; the reader stores the lowercased name; and every spawned
iterator decodes with that lowercased name, whatever the casing the
caller supplied. -/
theorem encoding_validation_lowercases (path enc : String) (chunk : Int) :
    ((∃ frb, FileReadBackwards.init path enc chunk = .ok frb) ↔
      strLower enc ∈ supported_encodings) ∧
    (∀ frb : FileReadBackwards, FileReadBackwards.init path enc chunk = .ok frb →
      frb.encoding = strLower enc ∧
      (∀ fs it, FileReadBackwards.iter fs frb = .ok it →
        it.encoding = strLower enc)) := by
  have hmem : supported_encodings.contains (strLower enc) = true ↔
      strLower enc ∈ supported_encodings := List.elem_iff
  constructor
  · constructor
    · rintro ⟨frb, hfrb⟩
      by_cases h : supported_encodings.contains (strLower enc) = true
      · exact hmem.mp h
      · simp only [FileReadBackwards.init] at hfrb
        rw [if_neg h] at hfrb
        exact absurd hfrb (by simp)
    · intro h
      refine ⟨{ path := path, encoding := strLower enc, chunk_size := chunk }, ?_⟩
      simp only [FileReadBackwards.init]
      rw [if_pos (hmem.mpr h)]
  · intro frb hfrb
    by_cases hc : supported_encodings.contains (strLower enc) = true
    · simp only [FileReadBackwards.init] at hfrb
      rw [if_pos hc] at hfrb
      have hfrbeq : { path := path, encoding := strLower enc, chunk_size := chunk :
          FileReadBackwards } = frb := by
        injection hfrb
      subst hfrbeq
      refine ⟨rfl, ?_⟩
      intro fs it hit
      simp only [FileReadBackwards.iter] at hit
      cases heq : fs path with
      | none =>
        rw [heq] at hit
        exact absurd hit (by simp)
      | some bytes =>
        rw [heq] at hit
        injection hit with h2
        rw [← h2]
        rfl
    · simp only [FileReadBackwards.init] at hfrb
      rw [if_neg hc] at hfrb
      exact absurd hfrb (by simp)

/-- Witness for C10 on the mixed-case name "UTF-8": accepted, stored as
"utf-8", and the spawned iterator decodes with "utf-8". -/
theorem encoding_validation_lowercases_witness :
    (∃ frb, FileReadBackwards.init "p" "UTF-8" 4 = .ok frb) ∧
    ({ path := "p", encoding := "utf-8", chunk_size := 4 :
        FileReadBackwards }).encoding = strLower "UTF-8" := by
  have h := encoding_validation_lowercases "p" "UTF-8" 4
  refine ⟨h.1.mpr (by decide), ?_⟩
  exact (h.2 { path := "p", encoding := "utf-8", chunk_size := 4 } (by rfl)).1

/-- C7: when the raw bytes of a returned line fail to decode under the
configured encoding, the `next` call returns the decoding error — a
constructor distinct from the I/O error, from any yielded line and from
the end-of-sequence signal — after the buffer has consumed the line, so
the failure is neither swallowed nor turned into a silent
end-of-sequence. -/
theorem decode_error_propagates (it : FileReadBackwardsIterator)
    (b1 : BufferWorkSpace)
    (h1 : it.closed = false)
    (h2 : has_returned_every_line it.buf = false)
    (h3 : read_until_yieldable it.file it.buf = .ok b1)
    (h4 : decodeBytes it.encoding (return_line b1).1 = none) :
    it.next = (NextOutcome.err StepErr.decodeErr,
      { it with buf := (return_line b1).2 }) ∧
    StepErr.decodeErr ≠ StepErr.ioErr ∧
    (∀ s, NextOutcome.err StepErr.decodeErr ≠ NextOutcome.line s) ∧
    NextOutcome.err StepErr.decodeErr ≠ NextOutcome.stop := by
  refine ⟨?_, by decide, by intro s; simp, by decide⟩
  simp only [FileReadBackwardsIterator.next]
  rw [if_neg (by simp [h1]), if_neg (by simp [h2]), h3]
  simp only [h4]

/-- Witness for C7: the byte 200 is not valid ASCII, so the single-line
file [200] read with encoding "ascii" produces the decoding error. -/
theorem decode_error_propagates_witness :
    (mkIterator [200] "ascii" 1).closed = false ∧
    has_returned_every_line (mkIterator [200] "ascii" 1).buf = false ∧
    read_until_yieldable (mkIterator [200] "ascii" 1).file
      (mkIterator [200] "ascii" 1).buf =
        .ok { chunk_size := 1, cursor := 0, pending := [200] } ∧
    decodeBytes (mkIterator [200] "ascii" 1).encoding
      (return_line { chunk_size := 1, cursor := 0, pending := [200] }).1 = none ∧
    (mkIterator [200] "ascii" 1).next = (NextOutcome.err StepErr.decodeErr,
      { mkIterator [200] "ascii" 1 with
          buf := (return_line { chunk_size := 1, cursor := 0, pending := [200] }).2 }) := by
  refine ⟨rfl, rfl, rfl, rfl, ?_⟩
  exact (decode_error_propagates (mkIterator [200] "ascii" 1)
    { chunk_size := 1, cursor := 0, pending := [200] } rfl rfl rfl rfl).1

/-- C8: the bulk `close` of the reader closes every still-alive handle
it spawned, skips garbage-reclaimed entries without error, and closing
again — the bulk operation, an individual handle, or an individual
iterator — is a no-op that never errors (every close operation here is a
total function, and closing is idempotent). -/
theorem bulk_close_contract (refs : List (Option FileHandle)) (h : FileHandle) :
    (∀ r ∈ closeAll refs, ∃ fp, r = some fp ∧ fp.closed = true) ∧
    closeAll (closeAll refs) = closeAll refs ∧
    closeAll (none :: refs) = closeAll refs ∧
    FileHandle.close (FileHandle.close h) = FileHandle.close h ∧
    (FileHandle.close h).closed = true ∧
    (∀ it : FileReadBackwardsIterator, it.close.close = it.close) := by
  refine ⟨?_, ?_, rfl, rfl, rfl, fun it => rfl⟩
  · induction refs with
    | nil =>
      intro r hr
      simp [closeAll] at hr
    | cons a t ih =>
      intro r hr
      cases a with
      | none =>
        have e : closeAll (none :: t) = closeAll t := rfl
        rw [e] at hr
        exact ih r hr
      | some fp =>
        have e : closeAll (some fp :: t) = some (FileHandle.close fp) :: closeAll t :=
          rfl
        rw [e] at hr
        rcases List.mem_cons.mp hr with hr2 | hr2
        · exact ⟨FileHandle.close fp, hr2, rfl⟩
        · exact ih r hr2
  · induction refs with
    | nil => rfl
    | cons a t ih =>
      cases a with
      | none => exact ih
      | some fp =>
        have e : closeAll (some fp :: t) =
            some (FileHandle.mk true) :: closeAll t := rfl
        rw [e]
        have e2 : closeAll (some (FileHandle.mk true) :: closeAll t) =
            some (FileHandle.mk true) :: closeAll (closeAll t) := rfl
        rw [e2, ih]

/-- Witness for C8 on a register holding a reclaimed entry, an open
handle and an already-closed handle. -/
theorem bulk_close_contract_witness :
    (∃ fp, (some (FileHandle.mk true) : Option FileHandle) = some fp ∧
      fp.closed = true) ∧
    closeAll (closeAll [none, some (FileHandle.mk false), some (FileHandle.mk true)]) =
      closeAll [none, some (FileHandle.mk false), some (FileHandle.mk true)] := by
  have h := bulk_close_contract
    [none, some (FileHandle.mk false), some (FileHandle.mk true)] (FileHandle.mk false)
  exact ⟨h.1 (some (FileHandle.mk true)) (by decide), h.2.1⟩
